import Mathlib

/-!
Verification development for the Yasha bookkeeping bot (`main.py`).

Shallow embedding conventions:

* Python `float` values are modelled as exact rationals (`ℚ`).  Where the
  binary representation of a float is decisive (the `float(value)` produced by
  `eval` inside `safe_eval`, and `float(m.group(3))` in the percent wrapper),
  the conversion to the nearest IEEE-754 double is modelled explicitly by
  `Yasha.toDouble` (round to nearest, ties to even; overflow and subnormal
  ranges are irrelevant for every value appearing here and are not modelled).
  Intermediate float roundings of `+ - * /` are not modelled; no statement in
  this file depends on them.
* Python's `eval(expr, ("__builtins__": None), ())` is modelled by
  `Yasha.pyEvalQ`, an interpreter for the full Python expression grammar over
  the characters admitted by the `ALLOWED` whitelist: numeric literals, unary
  `+ -`, binary `+ - * / % // **`, and parentheses, with Python's
  `ZeroDivisionError` cases returning `none`.  A `**` with a non-integer
  exponent (whose exact value is irrational in general) also returns `none`.
  Strings outside this fragment (possible only through the whitelist-bypass
  analysed at claim C1) are likewise `none` here even though CPython may
  evaluate them; the one claim that hinges on such strings is settled as a
  code bug with the CPython behaviour recorded in its analysis, not by this
  model's value.
* The global mutable dictionaries `accounts` / `archive` become explicit
  state (`Yasha.BotState`) threaded through the operations; `save_json`
  persistence and the Telegram transport are external collaborators and carry
  no ledger semantics.  `datetime.utcnow().isoformat()` timestamps enter as
  explicit `String` arguments.
-/

set_option maxRecDepth 100000

deriving instance DecidableEq for Except

-- The Batteries rational primitives carry an `@[irreducible]` hint that
-- blocks kernel evaluation; restoring the default reducibility lets
-- concrete ledger computations be settled by `decide`.
unseal Rat.mul Rat.add Rat.inv Rat.sub

namespace Yasha

/-- Python whitespace characters recognised by both `str.strip` and the
regex class `\s` (ASCII range, which is all the program ever sees). -/
def isPySpace (c : Char) : Bool :=
  c = ' ' ∨ c = '\t' ∨ c = '\n' ∨ c = '\r' ∨ c = '\x0b' ∨ c = '\x0c'

/-- Model of Python `str.strip()` on the character list of a string. -/
def pyStrip (l : List Char) : List Char :=
  ((l.dropWhile isPySpace).reverse.dropWhile isPySpace).reverse

/-- Model of Python `str.upper()` (identifiers here are ASCII). -/
def pyUpper (s : String) : String :=
  String.mk (s.data.map Char.toUpper)

/-- Numeric value of a digit string (`foldl` over decimal digits). -/
def digitsVal (l : List Char) : ℕ :=
  l.foldl (fun a c => 10 * a + (c.toNat - 48)) 0

/-- Exact rational value of the decimal literal `int.frac`. -/
def decimalVal (intPart fracPart : List Char) : ℚ :=
  (digitsVal intPart : ℚ) + (digitsVal fracPart : ℚ) / (10 : ℚ) ^ fracPart.length

/-- Absolute value on `ℚ`, written out so that the kernel evaluates it. -/
def qAbs (q : ℚ) : ℚ := if q < 0 then -q else q

/-- Floor of the base-2 logarithm of a positive rational, by repeated
doubling/halving with fuel (fuel 5000 covers every magnitude reachable by an
IEEE double, far beyond anything in this development). -/
def log2floorQ : ℕ → ℚ → ℤ
  | 0, _ => 0
  | f + 1, q =>
    if q < 1 then log2floorQ f (2 * q) - 1
    else if 2 ≤ q then log2floorQ f (q / 2) + 1
    else 0

/-- Round a rational to the nearest integer, ties to even (IEEE default). -/
def roundHalfEven (x : ℚ) : ℤ :=
  let n := ⌊x⌋
  let r := x - (n : ℚ)
  if r < 1 / 2 then n
  else if 1 / 2 < r then n + 1
  else if n % 2 = 0 then n else n + 1

/-- The IEEE-754 double nearest to a rational: the 53-bit mantissa model of
CPython's `float`.  Overflow and subnormals are outside every value in this
development and are not modelled. -/
def toDouble (q : ℚ) : ℚ :=
  if q = 0 then 0
  else
    let a := qAbs q
    let e := log2floorQ 5000 a
    let m := roundHalfEven (a * (2 : ℚ) ^ (52 - e))
    let r := (m : ℚ) * (2 : ℚ) ^ (e - 52)
    if q < 0 then -r else r

/-- Round a rational to the nearest integer, exact halves away from zero:
the `ROUND_HALF_UP` rounding mode of Python's `decimal` module. -/
def roundHalfUpZ (x : ℚ) : ℤ :=
  if 0 ≤ x then ⌊x + 1 / 2⌋ else -⌊-x + 1 / 2⌋

/-- Model of `Decimal(v).quantize(Decimal(10) ** -digits, rounding=ROUND_HALF_UP)`
applied to the exact value `v` (`Decimal` of a float is exact, so no error
enters at this step). -/
def quantize (v : ℚ) (digits : ℕ) : ℚ :=
  (roundHalfUpZ (v * (10 : ℚ) ^ digits) : ℚ) / (10 : ℚ) ^ digits

/-- Tokens of the arithmetic fragment reachable through the whitelist. -/
inductive Tok where
  | num (q : ℚ)
  | plus
  | minus
  | star
  | slash
  | pct
  | lpar
  | rpar
  | dstar
  | dslash
  deriving DecidableEq

/-- Tokenizer for the arithmetic fragment of Python's expression grammar:
decimal literals (`12`, `1.5`, `5.`, `.5`), the operators `+ - * / % ** //`
and parentheses; whitespace is skipped and any other character is a token
error (`none`).  Fuel is the length of the input plus one. -/
def tokenizeAux : ℕ → List Char → Option (List Tok)
  | 0, _ => none
  | _ + 1, [] => some []
  | f + 1, c :: cs =>
    if isPySpace c then tokenizeAux f cs
    else if c.isDigit then
      let ds := (c :: cs).takeWhile Char.isDigit
      let r1 := (c :: cs).dropWhile Char.isDigit
      match r1 with
      | '.' :: r2 =>
        let ds2 := r2.takeWhile Char.isDigit
        let r3 := r2.dropWhile Char.isDigit
        match tokenizeAux f r3 with
        | some ts => some (Tok.num (decimalVal ds ds2) :: ts)
        | none => none
      | _ =>
        match tokenizeAux f r1 with
        | some ts => some (Tok.num (decimalVal ds []) :: ts)
        | none => none
    else if c = '.' then
      match cs with
      | d :: _ =>
        if d.isDigit then
          let ds2 := cs.takeWhile Char.isDigit
          let r2 := cs.dropWhile Char.isDigit
          match tokenizeAux f r2 with
          | some ts => some (Tok.num (decimalVal [] ds2) :: ts)
          | none => none
        else none
      | [] => none
    else if c = '*' then
      match cs with
      | '*' :: r =>
        (match tokenizeAux f r with
         | some ts => some (Tok.dstar :: ts)
         | none => none)
      | _ =>
        (match tokenizeAux f cs with
         | some ts => some (Tok.star :: ts)
         | none => none)
    else if c = '/' then
      match cs with
      | '/' :: r =>
        (match tokenizeAux f r with
         | some ts => some (Tok.dslash :: ts)
         | none => none)
      | _ =>
        (match tokenizeAux f cs with
         | some ts => some (Tok.slash :: ts)
         | none => none)
    else if c = '+' then
      match tokenizeAux f cs with
      | some ts => some (Tok.plus :: ts)
      | none => none
    else if c = '-' then
      match tokenizeAux f cs with
      | some ts => some (Tok.minus :: ts)
      | none => none
    else if c = '%' then
      match tokenizeAux f cs with
      | some ts => some (Tok.pct :: ts)
      | none => none
    else if c = '(' then
      match tokenizeAux f cs with
      | some ts => some (Tok.lpar :: ts)
      | none => none
    else if c = ')' then
      match tokenizeAux f cs with
      | some ts => some (Tok.rpar :: ts)
      | none => none
    else none

/-- Tokenize a whole character list. -/
def tokenize (l : List Char) : Option (List Tok) :=
  tokenizeAux (l.length + 1) l

/-- Python float true division: `ZeroDivisionError` becomes `none`. -/
def pyDiv (a b : ℚ) : Option ℚ :=
  if b = 0 then none else some (a / b)

/-- Python float `%`: `a - b * floor(a / b)` (result has the divisor's sign);
`ZeroDivisionError` becomes `none`. -/
def pyMod (a b : ℚ) : Option ℚ :=
  if b = 0 then none else some (a - b * (⌊a / b⌋ : ℚ))

/-- Python float floor division `//`; `ZeroDivisionError` becomes `none`. -/
def pyFloorDiv (a b : ℚ) : Option ℚ :=
  if b = 0 then none else some ((⌊a / b⌋ : ℚ))

/-- Python `**` restricted to integer exponents (`0 ** negative` is a
`ZeroDivisionError`); a non-integer exponent generally has an irrational
value and is not modelled (`none`). -/
def pyPow (a b : ℚ) : Option ℚ :=
  if b.den = 1 then
    if a = 0 ∧ b.num < 0 then none else some (a ^ b.num)
  else none

mutual

/-- Additive level of Python's expression grammar: `term (('+'|'-') term)*`. -/
def pExpr : ℕ → List Tok → Option (ℚ × List Tok)
  | 0, _ => none
  | f + 1, ts =>
    match pTerm f ts with
    | some (v, r) => pExprRest f v r
    | none => none

/-- Left-associative chain of `+`/`-` continuations. -/
def pExprRest : ℕ → ℚ → List Tok → Option (ℚ × List Tok)
  | 0, _, _ => none
  | f + 1, v, Tok.plus :: ts =>
    (match pTerm f ts with
     | some (w, r) => pExprRest f (v + w) r
     | none => none)
  | f + 1, v, Tok.minus :: ts =>
    (match pTerm f ts with
     | some (w, r) => pExprRest f (v - w) r
     | none => none)
  | _ + 1, v, ts => some (v, ts)

/-- Multiplicative level: `factor (('*'|'/'|'//'|'%') factor)*`. -/
def pTerm : ℕ → List Tok → Option (ℚ × List Tok)
  | 0, _ => none
  | f + 1, ts =>
    match pFactor f ts with
    | some (v, r) => pTermRest f v r
    | none => none

/-- Left-associative chain of `*`, `/`, `//`, `%` continuations. -/
def pTermRest : ℕ → ℚ → List Tok → Option (ℚ × List Tok)
  | 0, _, _ => none
  | f + 1, v, Tok.star :: ts =>
    (match pFactor f ts with
     | some (w, r) => pTermRest f (v * w) r
     | none => none)
  | f + 1, v, Tok.slash :: ts =>
    (match pFactor f ts with
     | some (w, r) =>
       (match pyDiv v w with
        | some u => pTermRest f u r
        | none => none)
     | none => none)
  | f + 1, v, Tok.dslash :: ts =>
    (match pFactor f ts with
     | some (w, r) =>
       (match pyFloorDiv v w with
        | some u => pTermRest f u r
        | none => none)
     | none => none)
  | f + 1, v, Tok.pct :: ts =>
    (match pFactor f ts with
     | some (w, r) =>
       (match pyMod v w with
        | some u => pTermRest f u r
        | none => none)
     | none => none)
  | _ + 1, v, ts => some (v, ts)

/-- Python `factor`: `('+'|'-') factor | power`. -/
def pFactor : ℕ → List Tok → Option (ℚ × List Tok)
  | 0, _ => none
  | f + 1, Tok.plus :: ts => pFactor f ts
  | f + 1, Tok.minus :: ts =>
    (match pFactor f ts with
     | some (v, r) => some (-v, r)
     | none => none)
  | f + 1, ts => pPower f ts

/-- Python `power`: `atom ['**' factor]` (right-associative, so `-2**2`
is `-(2**2)` and `2**-1` is legal). -/
def pPower : ℕ → List Tok → Option (ℚ × List Tok)
  | 0, _ => none
  | f + 1, ts =>
    match pAtom f ts with
    | some (v, Tok.dstar :: r) =>
      (match pFactor f r with
       | some (w, r2) =>
         (match pyPow v w with
          | some u => some (u, r2)
          | none => none)
       | none => none)
    | some (v, r) => some (v, r)
    | none => none

/-- Python `atom`: a numeric literal or a parenthesised expression. -/
def pAtom : ℕ → List Tok → Option (ℚ × List Tok)
  | 0, _ => none
  | _ + 1, Tok.num q :: ts => some (q, ts)
  | f + 1, Tok.lpar :: ts =>
    (match pExpr f ts with
     | some (v, Tok.rpar :: r) => some (v, r)
     | _ => none)
  | _ + 1, _ => none

end

/-- Exact-rational interpreter for the arithmetic fragment of Python `eval`:
tokenize, parse a full expression, and require the input to be consumed. -/
def pyEvalQ (l : List Char) : Option ℚ :=
  match tokenize l with
  | none => none
  | some ts =>
    match pExpr (10 * ts.length + 10) ts with
    | some (v, []) => some v
    | _ => none

/-- Model of `eval(expr, ...)` followed by `float(value)` on line 91-92 of
`main.py`: the exact value rounded to the nearest IEEE double. -/
def pyEvalFloat (l : List Char) : Option ℚ :=
  match pyEvalQ l with
  | some v => some (toDouble v)
  | none => none

/-- Character class of the whitelist regex `ALLOWED = ^[0-9\.\+\-\*\/\%\(\)\s]+$`
(line 81 of `main.py`). -/
def allowedChar (c : Char) : Bool :=
  c.isDigit ∨ c = '.' ∨ c = '+' ∨ c = '-' ∨ c = '*' ∨ c = '/' ∨ c = '%' ∨
    c = '(' ∨ c = ')' ∨ isPySpace c

/-- Full-string match of the `ALLOWED` regex: at least one character, all of
them in the whitelist class. -/
def ALLOWED_match (l : List Char) : Bool :=
  !l.isEmpty && l.all allowedChar

/-- The guard of `safe_eval` exactly as written on line 87 of `main.py`:
`if not ALLOWED.match(expr) and "%" not in expr: return None`.  Note the
conjunction: an input containing `%` is never rejected, whatever other
characters it contains. -/
def safe_eval_rejects (l : List Char) : Bool :=
  !ALLOWED_match l && !l.contains '%'

/-- Model of `safe_eval` (lines 82-95 of `main.py`): strip, apply the guard
above, then hand the text to Python `eval` and convert to `float`.  (The
`expr.replace("%", "%")` on line 85 is the identity and is omitted.) -/
def safe_eval (s : String) : Option ℚ :=
  let e := pyStrip s.data
  if safe_eval_rejects e then none else pyEvalFloat e

/-- Matcher for the tail of the percent-suffix regex after the sign:
`\s*([0-9]+(?:\.[0-9]+)?)\s*%$`, returning the exact value of group 3.
The optional fraction group is forced whenever a `.`-digit continuation is
present, which is exactly the regex backtracking behaviour here: declining
it leaves a `.` that matches neither `\s*` nor `%`. -/
def numPercentEnd (l : List Char) : Option ℚ :=
  let l1 := l.dropWhile isPySpace
  let ds := l1.takeWhile Char.isDigit
  let r1 := l1.dropWhile Char.isDigit
  if ds.isEmpty then none
  else
    match r1 with
    | '.' :: r2 =>
      let ds2 := r2.takeWhile Char.isDigit
      let r3 := r2.dropWhile Char.isDigit
      if ds2.isEmpty then none
      else if (r3.dropWhile isPySpace) = ['%'] then some (decimalVal ds ds2)
      else none
    | _ =>
      if (r1.dropWhile isPySpace) = ['%'] then some (decimalVal ds []) else none

/-- Lazy search of `re.match(r"^(.*?)([+\-])\s*([0-9]+(?:\.[0-9]+)?)\s*%$", expr)`
(line 63 of `main.py`): scan left to right for the first `+`/`-` whose tail
matches `numPercentEnd`; group 1 (the accumulated prefix, kept reversed in
`pre`) may not cross a newline because `.` does not match `\n`. -/
def suffixFind (pre : List Char) : List Char → Option (List Char × Char × ℚ)
  | [] => none
  | c :: rest =>
    if c = '+' ∨ c = '-' then
      match numPercentEnd rest with
      | some n => some (pre.reverse, c, n)
      | none => suffixFind (c :: pre) rest
    else if c = '\n' then none
    else suffixFind (c :: pre) rest

/-- One attempt of the inline-percent pattern `([0-9]+(?:\.[0-9]+)?)\s*%`
at the current position: returns group 1 and the rest of the input after
the consumed match. -/
def inlineMatch (l : List Char) : Option (List Char × List Char) :=
  let ds := l.takeWhile Char.isDigit
  let r1 := l.dropWhile Char.isDigit
  if ds.isEmpty then none
  else
    match r1 with
    | '.' :: r2 =>
      let ds2 := r2.takeWhile Char.isDigit
      let r3 := r2.dropWhile Char.isDigit
      if ds2.isEmpty then none
      else
        match r3.dropWhile isPySpace with
        | '%' :: r4 => some (ds ++ '.' :: ds2, r4)
        | _ => none
    | _ =>
      match r1.dropWhile isPySpace with
      | '%' :: r2 => some (ds, r2)
      | _ => none

/-- Model of `re.sub(r"([0-9]+(?:\.[0-9]+)?)\s*%", r"(\1/100)", expr)`
(line 77 of `main.py`): leftmost non-overlapping matches are replaced by
`(N/100)`; fuel is the input length plus one. -/
def inlineRewriteAux : ℕ → List Char → List Char
  | 0, l => l
  | _ + 1, [] => []
  | f + 1, c :: cs =>
    match inlineMatch (c :: cs) with
    | some (numCs, rest) =>
      '(' :: (numCs ++ '/' :: '1' :: '0' :: '0' :: ')' :: inlineRewriteAux f rest)
    | none => c :: inlineRewriteAux f cs

/-- Inline-percent rewrite of a whole character list. -/
def inlineRewrite (l : List Char) : List Char :=
  inlineRewriteAux (l.length + 1) l

/-- Model of `eval_expression_with_percent` (lines 60-78 of `main.py`).
On a percent-suffix match the left part is evaluated by `safe_eval`
(not recursively by this function), `n` passes through `float()`, and the
result is `left ± left * (n / 100)`; otherwise every inline `N%` is
rewritten to `(N/100)` and the result handed to `safe_eval`. -/
def eval_expression_with_percent (s : String) : Option ℚ :=
  let e := pyStrip s.data
  match suffixFind [] e with
  | some (l, op, nRaw) =>
    let n := toDouble nRaw
    (match safe_eval (String.mk (pyStrip l)) with
     | none => none
     | some leftVal =>
       let percentVal := leftVal * (n / 100)
       if op = '+' then some (leftVal + percentVal)
       else some (leftVal - percentVal))
  | none => safe_eval (String.mk (inlineRewrite e))

/-- One history entry, mirroring the dict built on line 127 of `main.py`:
`{"timestamp": ..., "amount": q, "expr": expr, "comment": comment}`. -/
structure HEntry where
  timestamp : String
  amount : ℚ
  expr : String
  comment : String
  deriving DecidableEq

/-- One account record, mirroring `{"balance": ..., "digits": ..., "history": [...]}`
(line 102 of `main.py`).  The `.get(..., default)` accesses in the source
always find the key, so the fields are total here. -/
structure AccountInfo where
  balance : ℚ
  digits : ℕ
  history : List HEntry
  deriving DecidableEq

/-- One archive record, mirroring the dict appended on line 281 of `main.py`. -/
structure ArchiveEntry where
  account : String
  history : List HEntry
  archived_at : String
  deriving DecidableEq

/-- The archive blob `{"archived": [...]}` (line 52 of `main.py`). -/
structure ArchiveStore where
  archived : List ArchiveEntry
  deriving DecidableEq

/-- The two global mutable stores of `main.py` (`accounts` on line 51 and
`archive` on line 52) as explicit state.  The Python dict is modelled as an
insertion-ordered association list; all reachable states keep its keys
unique, as a dict does by construction. -/
structure BotState where
  accounts : List (String × AccountInfo)
  archive : ArchiveStore
  deriving DecidableEq

/-- Dict read `accounts[k]` / `k in accounts`: first (= unique) binding. -/
def alookup (k : String) : List (String × AccountInfo) → Option AccountInfo
  | [] => none
  | (n, i) :: t => if n = k then some i else alookup k t

/-- Dict in-place update of the value bound to `k` (first binding). -/
def aupdate (k : String) (f : AccountInfo → AccountInfo) :
    List (String × AccountInfo) → List (String × AccountInfo)
  | [] => []
  | (n, i) :: t => if n = k then (n, f i) :: t else (n, i) :: aupdate k f t

/-- Dict deletion `del accounts[k]` (first binding). -/
def aremove (k : String) : List (String × AccountInfo) → List (String × AccountInfo)
  | [] => []
  | (n, i) :: t => if n = k then t else (n, i) :: aremove k t

/-- Model of `add_account` (lines 98-104 of `main.py`).  The pair mirrors the
Python `(ok, message)` return; `save_json` is external persistence. -/
def add_account (name : String) (digits : ℕ) (s : BotState) :
    (Bool × String) × BotState :=
  let n := pyUpper name
  match alookup n s.accounts with
  | some _ => ((false, "Account already exists."), s)
  | none =>
    ((true, "The account was added. The accuracy of " ++ Nat.repr digits ++
        " digits after the decimal point is established."),
     { s with accounts := s.accounts ++ [(n, ⟨0, digits, []⟩)] })

/-- Model of `delete_account` (lines 106-112 of `main.py`). -/
def delete_account (name : String) (s : BotState) : (Bool × String) × BotState :=
  let n := pyUpper name
  match alookup n s.accounts with
  | none => ((false, "Account not found."), s)
  | some _ => ((true, "The account was deleted."), { s with accounts := aremove n s.accounts })

/-- Model of `record_transaction` (lines 114-130 of `main.py`): uppercase the
id, auto-create an unknown account with 2 digits, evaluate the expression,
and only then check the result — so the auto-creation survives a failed
evaluation.  On success the value is quantized to the account's digits with
`ROUND_HALF_UP`, added to the balance, and appended to the history with the
caller-supplied UTC timestamp.  `Except.error m` models Python's
`(False, m)` and `Except.ok q` models `(True, q)`. -/
def record_transaction (account expr comment now : String) (s : BotState) :
    Except String ℚ × BotState :=
  let acc := pyUpper account
  let s1 := if (alookup acc s.accounts).isNone then (add_account acc 2 s).2 else s
  match eval_expression_with_percent expr with
  | none => (.error "Couldn't evaluate expression.", s1)
  | some val =>
    match alookup acc s1.accounts with
    | none =>
      -- unreachable: the auto-create above guarantees the key exists
      -- (reaching it in Python would be an uncaught KeyError)
      (.error "KeyError", s1)
    | some info =>
      let q := quantize val info.digits
      (.ok q,
       { s1 with
         accounts := aupdate acc
           (fun i => { i with
             balance := i.balance + q,
             history := i.history ++ [⟨now, q, expr, comment⟩] }) s1.accounts })

/-- Model of `format_amount` (lines 54-56 of `main.py`): quantize with
half-up rounding, then fixed-point rendering with exactly `digits` decimals
(none, and no point, when `digits = 0`, as `f"{q:.0f}"` renders). -/
def format_amount (a : ℚ) (digits : ℕ) : String :=
  let q := quantize a digits
  let units : ℕ := (qAbs q * (10 : ℚ) ^ digits).num.toNat
  let raw := (Nat.repr units).data
  let cs := if raw.length < digits + 1
    then List.replicate (digits + 1 - raw.length) '0' ++ raw else raw
  let body :=
    if digits = 0 then String.mk cs
    else String.mk (cs.take (cs.length - digits)) ++ "." ++
      String.mk (cs.drop (cs.length - digits))
  if q < 0 then "-" ++ body else body

/-- Model of Python `str.lower()` (ids here are ASCII). -/
def pyLower (s : String) : String :=
  String.mk (s.data.map Char.toLower)

/-- Model of `give_balances` (lines 132-139 of `main.py`). -/
def give_balances (s : BotState) : String :=
  let lines := s.accounts.map
    (fun p => format_amount p.2.balance p.2.digits ++ " " ++ pyLower p.1)
  if lines.isEmpty then "No accounts yet."
  else "Of your funds:\n" ++ String.intercalate "\n" lines

/-- Extraction of `DD.MM` and `HH:MM` from an ISO timestamp
`YYYY-MM-DDTHH:MM:SS...` as `datetime.fromisoformat` + `strftime` produce on
lines 153-155 of `main.py`; a string not of this shape takes the `except`
branch (date = raw text, empty time).  Only the `utcnow().isoformat()` shape
ever reaches this in the program. -/
def parseIsoDayTime (l : List Char) : Option (String × String) :=
  match l with
  | y1 :: y2 :: y3 :: y4 :: '-' :: m1 :: m2 :: '-' :: d1 :: d2 :: 'T' ::
      h1 :: h2 :: ':' :: mi1 :: mi2 :: rest =>
    if ([y1, y2, y3, y4, m1, m2, d1, d2, h1, h2, mi1, mi2].all Char.isDigit) ∧
        (rest = [] ∨ rest.headD ' ' = ':' ∨ rest.headD ' ' = '.') then
      some (String.mk [d1, d2, '.', m1, m2], String.mk [h1, h2, ':', mi1, mi2])
    else none
  | _ => none

/-- One line of an account statement (loop body, lines 150-159 of `main.py`):
the amount right-aligned to 10 characters, date, time, comment. -/
def renderStmtLine (digits : ℕ) (e : HEntry) : String :=
  let (date, time) :=
    match parseIsoDayTime e.timestamp.data with
    | some dt => dt
    | none => (e.timestamp, "")
  let amt := format_amount e.amount digits
  let pad := if amt.data.length < 10
    then String.mk (List.replicate (10 - amt.data.length) ' ') ++ amt else amt
  pad ++ " " ++ date ++ " " ++ time ++ " " ++ e.comment

/-- Model of `give_account_statement` (lines 141-160 of `main.py`).  The
function only reads the ledger; the unchanged state is returned alongside
the rendered text to make that explicit. -/
def give_account_statement (account : String) (full : Bool) (s : BotState) :
    String × BotState :=
  let acc := pyUpper account
  match alookup acc s.accounts with
  | none => ("Account " ++ acc ++ " not found.", s)
  | some info =>
    let history := if full then info.history
      else info.history.drop (info.history.length - 20)
    let lines := history.reverse.map (renderStmtLine info.digits)
    (String.intercalate "\n"
      (("Details /" ++ acc) :: " sum          date  time  comment" :: lines), s)

/-- Loop body of the archival branch of `message_handler` (lines 279-282 of
`main.py`): iterate over a snapshot of `accounts.items()`; every account with
non-empty history contributes one archive entry holding its full history and
has its live history cleared in place. -/
def archiveLoop (now : String) : List (String × AccountInfo) → BotState → BotState
  | [], s => s
  | (acc, info) :: rest, s =>
    if info.history.isEmpty then archiveLoop now rest s
    else archiveLoop now rest
      { accounts := aupdate acc (fun i => { i with history := [] }) s.accounts,
        archive := ⟨s.archive.archived ++ [⟨acc, info.history, now⟩]⟩ }

/-- The archival action triggered by the exact phrase `"Yasha, verified"`
in `message_handler` (lines 277-286 of `main.py`). -/
def archive_history (now : String) (s : BotState) : BotState :=
  archiveLoop now s.accounts s

/-- The ledger-mutating commands of the program, for reasoning about
reachable ledger-plus-archive states: explicit account creation and
deletion, recording a transaction, and the archival trigger.  Timestamps
are the caller-supplied stand-ins for `datetime.utcnow()`. -/
inductive Op where
  | addAcct (name : String) (digits : ℕ)
  | delAcct (name : String)
  | record (name expr comment now : String)
  | archive (now : String)
  deriving DecidableEq

/-- State transition of one command (replies discarded). -/
def applyOp (s : BotState) : Op → BotState
  | .addAcct n d => (add_account n d s).2
  | .delAcct n => (delete_account n s).2
  | .record n e c t => (record_transaction n e c t s).2
  | .archive t => archive_history t s

/-- The startup state with empty blobs. -/
def initState : BotState := ⟨[], ⟨[]⟩⟩

/-- The state reached by a command sequence from the startup state. -/
def runOps (ops : List Op) : BotState := ops.foldl applyOp initState

/-- Running total of every amount ever successfully recorded under account
id `id` along a command sequence starting in `s` (the "sum of all rounded
amounts ever recorded" of claim C5, as a trace quantity). -/
def recordedSumAux (id : String) : List Op → BotState → ℚ
  | [], _ => 0
  | op :: rest, s =>
    (match op with
     | .record n e c t =>
       (match (record_transaction n e c t s).1 with
        | .ok q => if pyUpper n = id then q else 0
        | .error _ => 0)
     | _ => 0) + recordedSumAux id rest (applyOp s op)

/-- Sum of all amounts ever recorded under `id` along `ops` from startup. -/
def recordedSum (ops : List Op) (id : String) : ℚ :=
  recordedSumAux id ops initState

/-- Sum of the amounts of a history list. -/
def histSum (l : List HEntry) : ℚ := (l.map HEntry.amount).sum

/-- Sum of all archived amounts filed under account id `id`. -/
def archSum (s : BotState) (id : String) : ℚ :=
  ((s.archive.archived.filter (fun a => a.account = id)).map
    (fun a => histSum a.history)).sum

/-! Helper lemmas shared across the claim theorems. -/

theorem toUpper_idem (c : Char) : c.toUpper.toUpper = c.toUpper := by
  by_cases h : (c.toNat ≥ 97 ∧ c.toNat ≤ 122)
  · have h1 : c.toUpper = Char.ofNat (c.toNat - 32) := by
      rw [Char.toUpper]
      simp [h]
    rw [h1]
    obtain ⟨ha, hb⟩ := h
    interval_cases hc : c.toNat <;> decide
  · have h1 : c.toUpper = c := by
      rw [Char.toUpper]
      simp [h]
    rw [h1, h1]

theorem pyUpper_idem (s : String) : pyUpper (pyUpper s) = pyUpper s := by
  unfold pyUpper
  cases s with
  | mk data =>
    simp only [List.map_map]
    congr 1
    exact List.map_congr_left fun c _ => toUpper_idem c

/-- Keys of the modelled dict, in insertion order. -/
def keysOf (l : List (String × AccountInfo)) : List String := l.map Prod.fst

theorem alookup_eq_none_iff (k : String) (l : List (String × AccountInfo)) :
    alookup k l = none ↔ k ∉ keysOf l := by
  induction l with
  | nil => simp [alookup, keysOf]
  | cons p t ih =>
    obtain ⟨n, i⟩ := p
    by_cases h : n = k
    · subst h
      simp [alookup, keysOf]
    · simp [alookup, keysOf, h, ih, Ne, eq_comm]
      intro hk
      exact fun hc => h hc.symm

theorem alookup_aupdate_self (k : String) (f : AccountInfo → AccountInfo)
    (l : List (String × AccountInfo)) :
    alookup k (aupdate k f l) = Option.map f (alookup k l) := by
  induction l with
  | nil => rfl
  | cons p t ih =>
    obtain ⟨n, i⟩ := p
    by_cases h : n = k
    · subst h
      simp [alookup, aupdate]
    · simp [alookup, aupdate, h, ih]

theorem alookup_aupdate_ne (k id : String) (f : AccountInfo → AccountInfo)
    (l : List (String × AccountInfo)) (h : k ≠ id) :
    alookup id (aupdate k f l) = alookup id l := by
  induction l with
  | nil => rfl
  | cons p t ih =>
    obtain ⟨n, i⟩ := p
    by_cases hn : n = k
    · subst hn
      simp [alookup, aupdate, h]
    · by_cases hid : n = id
      · subst hid
        simp [alookup, aupdate, hn]
      · simp [alookup, aupdate, hn, hid, ih]

theorem alookup_aremove_ne (k id : String) (l : List (String × AccountInfo))
    (h : k ≠ id) :
    alookup id (aremove k l) = alookup id l := by
  induction l with
  | nil => rfl
  | cons p t ih =>
    obtain ⟨n, i⟩ := p
    by_cases hn : n = k
    · subst hn
      simp [alookup, aremove, h]
    · by_cases hid : n = id
      · subst hid
        simp [alookup, aremove, hn]
      · simp [alookup, aremove, hn, hid, ih]

theorem alookup_append_some (id : String) (l m : List (String × AccountInfo))
    (j : AccountInfo) (h : alookup id l = some j) :
    alookup id (l ++ m) = some j := by
  induction l with
  | nil => exact absurd h (by simp [alookup])
  | cons p t ih =>
    obtain ⟨n, i⟩ := p
    by_cases hn : n = id
    · subst hn
      simp [alookup] at h ⊢
      exact h
    · simp [alookup, hn] at h ⊢
      exact ih h

theorem alookup_append_none (id : String) (l m : List (String × AccountInfo))
    (h : alookup id l = none) :
    alookup id (l ++ m) = alookup id m := by
  induction l with
  | nil => rfl
  | cons p t ih =>
    obtain ⟨n, i⟩ := p
    by_cases hn : n = id
    · subst hn
      simp [alookup] at h
    · simp [alookup, hn] at h ⊢
      exact ih h

theorem keysOf_aupdate (k : String) (f : AccountInfo → AccountInfo)
    (l : List (String × AccountInfo)) :
    keysOf (aupdate k f l) = keysOf l := by
  induction l with
  | nil => rfl
  | cons p t ih =>
    obtain ⟨n, i⟩ := p
    by_cases hn : n = k
    · subst hn
      simp [keysOf, aupdate]
    · simp [keysOf, aupdate, hn] at ih ⊢
      exact ih

theorem keysOf_aremove_sublist (k : String) (l : List (String × AccountInfo)) :
    List.Sublist (keysOf (aremove k l)) (keysOf l) := by
  induction l with
  | nil => simp [aremove, keysOf]
  | cons p t ih =>
    obtain ⟨n, i⟩ := p
    by_cases hn : n = k
    · subst hn
      simp only [aremove, if_pos rfl, keysOf, List.map_cons]
      exact (List.sublist_cons_self _ _)
    · simp only [aremove, if_neg hn, keysOf, List.map_cons]
      exact ih.cons₂ n

theorem histSum_append (l m : List HEntry) :
    histSum (l ++ m) = histSum l + histSum m := by
  simp [histSum]

/-- Sum of archived amounts filed under `id` in a list of archive entries. -/
def archSumL (es : List ArchiveEntry) (id : String) : ℚ :=
  ((es.filter (fun a => a.account = id)).map (fun a => histSum a.history)).sum

theorem archSum_eq_archSumL (s : BotState) (id : String) :
    archSum s id = archSumL s.archive.archived id := rfl

theorem archSumL_append (a b : List ArchiveEntry) (id : String) :
    archSumL (a ++ b) id = archSumL a id + archSumL b id := by
  simp [archSumL, List.filter_append]

/-- An account record after archival: same key, same balance and digits,
cleared history. -/
def clearPair (p : String × AccountInfo) : String × AccountInfo :=
  (p.1, ⟨p.2.balance, p.2.digits, []⟩)

/-- Archive entries contributed by one archival pass over a ledger snapshot,
in iteration order: one entry per account with non-empty history. -/
def archEntries (now : String) (l : List (String × AccountInfo)) :
    List ArchiveEntry :=
  l.filterMap (fun p =>
    if p.2.history.isEmpty then none else some ⟨p.1, p.2.history, now⟩)

/-- The per-account action of the archival loop on the live ledger. -/
def clearStep (a : List (String × AccountInfo)) (p : String × AccountInfo) :
    List (String × AccountInfo) :=
  if p.2.history.isEmpty then a
  else aupdate p.1 (fun i => { i with history := [] }) a

theorem archiveLoop_spec (now : String) (L : List (String × AccountInfo))
    (s : BotState) :
    archiveLoop now L s =
      ⟨L.foldl clearStep s.accounts,
       ⟨s.archive.archived ++ archEntries now L⟩⟩ := by
  induction L generalizing s with
  | nil =>
    obtain ⟨acc, ⟨ar⟩⟩ := s
    simp [archiveLoop, archEntries]
  | cons p t ih =>
    obtain ⟨acc, info⟩ := p
    by_cases h : info.history.isEmpty
    · have hnil : info.history = [] := List.isEmpty_iff.mp h
      have harch : archEntries now ((acc, info) :: t) = archEntries now t := by
        simp [archEntries, List.filterMap_cons, hnil]
      have hstep : clearStep s.accounts (acc, info) = s.accounts := by
        simp [clearStep, h]
      simp only [archiveLoop, if_pos h]
      rw [ih, List.foldl_cons, hstep, harch]
    · have hnil : ¬ (info.history = []) := by
        simpa [List.isEmpty_iff] using h
      have harch : archEntries now ((acc, info) :: t) =
          ⟨acc, info.history, now⟩ :: archEntries now t := by
        simp [archEntries, List.filterMap_cons, hnil]
      have hstep : clearStep s.accounts (acc, info) =
          aupdate acc (fun i => { i with history := [] }) s.accounts := by
        simp [clearStep, h]
      simp only [archiveLoop, if_neg h]
      rw [ih, List.foldl_cons, hstep, harch]
      simp [List.append_assoc]

theorem foldl_clearStep_cons (n : String) (ci : AccountInfo)
    (M : List (String × AccountInfo)) :
    ∀ (a : List (String × AccountInfo)), (∀ p ∈ M, p.1 ≠ n) →
      M.foldl clearStep ((n, ci) :: a) = (n, ci) :: M.foldl clearStep a := by
  induction M with
  | nil => intro a _; rfl
  | cons q t ih =>
    intro a hq
    have hq1 : q.1 ≠ n := hq q (List.mem_cons_self _ _)
    have hrest : ∀ p ∈ t, p.1 ≠ n := fun p hp => hq p (List.mem_cons_of_mem _ hp)
    by_cases hh : q.2.history.isEmpty
    · simp only [List.foldl_cons, clearStep, if_pos hh]
      exact ih a hrest
    · have hnq : ¬ (n = q.1) := fun hc => hq1 hc.symm
      simp only [List.foldl_cons, clearStep, if_neg hh]
      rw [show aupdate q.1 (fun i => { i with history := [] }) ((n, ci) :: a) =
            (n, ci) :: aupdate q.1 (fun i => { i with history := [] }) a from by
        simp [aupdate, hnq]]
      exact ih _ hrest

theorem foldl_clearStep_map (l : List (String × AccountInfo))
    (h : (keysOf l).Nodup) :
    l.foldl clearStep l = l.map clearPair := by
  induction l with
  | nil => rfl
  | cons p t ih =>
    obtain ⟨n, i⟩ := p
    have hns : n ∉ keysOf t ∧ (keysOf t).Nodup := by
      simpa [keysOf] using h
    have hstep : clearStep ((n, i) :: t) (n, i) =
        (n, ⟨i.balance, i.digits, []⟩) :: t := by
      by_cases hh : i.history.isEmpty
      · obtain ⟨b, d, hist⟩ := i
        simp only [List.isEmpty_iff] at hh
        subst hh
        simp [clearStep]
      · simp [clearStep, hh, aupdate]
    rw [List.foldl_cons, hstep,
      foldl_clearStep_cons n _ t t
        (fun p hp hc => hns.1 (hc ▸ List.mem_map_of_mem Prod.fst hp)),
      ih hns.2]
    rfl

/-- Net effect of one archival run (under the dict key-uniqueness that every
reachable state has): histories cleared in place, one archive entry appended
per non-empty account, in ledger order. -/
theorem archive_history_spec (now : String) (s : BotState)
    (h : (keysOf s.accounts).Nodup) :
    archive_history now s =
      ⟨s.accounts.map clearPair,
       ⟨s.archive.archived ++ archEntries now s.accounts⟩⟩ := by
  rw [archive_history, archiveLoop_spec, foldl_clearStep_map _ h]

theorem alookup_map_clearPair (id : String) (l : List (String × AccountInfo)) :
    alookup id (l.map clearPair) =
      Option.map (fun i => (⟨i.balance, i.digits, []⟩ : AccountInfo)) (alookup id l) := by
  induction l with
  | nil => rfl
  | cons p t ih =>
    obtain ⟨n, i⟩ := p
    by_cases hn : n = id
    · subst hn
      simp [alookup, clearPair]
    · simp [alookup, clearPair, hn, ih]

theorem alookup_of_mem_nodup (l : List (String × AccountInfo))
    (h : (keysOf l).Nodup) (p : String × AccountInfo) (hp : p ∈ l) :
    alookup p.1 l = some p.2 := by
  induction l with
  | nil => cases hp
  | cons q t ih =>
    obtain ⟨n, i⟩ := q
    have hns : n ∉ keysOf t ∧ (keysOf t).Nodup := by
      simpa [keysOf] using h
    rcases List.mem_cons.1 hp with hpq | hpt
    · subst hpq
      simp [alookup]
    · by_cases hn : n = p.1
      · exact absurd (hn ▸ List.mem_map_of_mem Prod.fst hpt) hns.1
      · simp only [alookup, if_neg hn]
        exact ih hns.2 hpt

/-! The claim theorems. -/

/-- C1: the claim says every input with a character outside the whitelist is
rejected with the uniform failure `None`.  The guard of `safe_eval` is
`not ALLOWED.match(expr) and "%" not in expr`, so the string `"[2][0]%3"` —
which violates the whitelist — is not rejected at all: `safe_eval` forwards
it to Python `eval` (where CPython returns `2.0`).  This theorem exhibits the
bypass: the whitelist does not match, yet the reject condition is false and
`safe_eval` reduces to the `eval` call, and the
`eval_expression_with_percent` wrapper forwards the same text unchanged. -/
theorem C1_whitelist_guard_bypassed :
    ALLOWED_match (pyStrip "[2][0]%3".data) = false ∧
    safe_eval_rejects (pyStrip "[2][0]%3".data) = false ∧
    safe_eval "[2][0]%3" = pyEvalFloat (pyStrip "[2][0]%3".data) ∧
    eval_expression_with_percent "[2][0]%3" =
      pyEvalFloat (pyStrip "[2][0]%3".data) := by
  refine ⟨by decide, by decide, by decide, by decide⟩

/-- C2 counterexample: recording with an unknown account id and a
non-evaluable expression returns the descriptive error, but the ledger is
NOT "exactly what it was before the call": the account `"XYZ"` has been
auto-created before evaluation was attempted. -/
theorem C2_counterexample :
    (record_transaction "XYZ" "abc" "" "t0" initState).1 =
      Except.error "Couldn't evaluate expression." ∧
    (record_transaction "XYZ" "abc" "" "t0" initState).2 ≠ initState := by
  refine ⟨by decide, by decide⟩

/-- C2 amended: when evaluation of the expression fails,
`record_transaction` returns the descriptive error and the ledger is
unchanged except for the auto-creation that has already happened: for a
known (uppercased) id the state is exactly the prior state, for an unknown
id exactly one fresh account (balance 0, digits 2, empty history) has been
appended and nothing else differs. -/
theorem C2_failed_eval_state (account expr comment now : String) (s : BotState)
    (h : eval_expression_with_percent expr = none) :
    record_transaction account expr comment now s =
      (Except.error "Couldn't evaluate expression.",
       if (alookup (pyUpper account) s.accounts).isNone
       then { s with accounts := s.accounts ++ [(pyUpper account, ⟨0, 2, []⟩)] }
       else s) := by
  cases hl : alookup (pyUpper account) s.accounts with
  | none => simp [record_transaction, h, hl, add_account, pyUpper_idem]
  | some info => simp [record_transaction, h, hl]

/-- C2 witness: the amended statement evaluated on a concrete ledger holding
`"UAH"` and the malformed expression `"5/"`. -/
theorem C2_witness :
    eval_expression_with_percent "5/" = none ∧
    record_transaction "UAH" "5/" "c" "t" ⟨[("UAH", ⟨7, 2, []⟩)], ⟨[]⟩⟩ =
      (Except.error "Couldn't evaluate expression.",
       if (alookup (pyUpper "UAH") [("UAH", (⟨7, 2, []⟩ : AccountInfo))]).isNone
       then { accounts := [("UAH", ⟨7, 2, []⟩), (pyUpper "UAH", ⟨0, 2, []⟩)],
              archive := ⟨[]⟩ }
       else ⟨[("UAH", ⟨7, 2, []⟩)], ⟨[]⟩⟩) :=
  ⟨by decide, C2_failed_eval_state "UAH" "5/" "c" "t" ⟨[("UAH", ⟨7, 2, []⟩)], ⟨[]⟩⟩ (by decide)⟩

/-- C3: the claim says an expression evaluating to 1.005 on a digits-2
account stores 1.01 (round-half-up).  The evaluator returns the `float`
nearest 1.005, which is 4526117625507348 / 2^52 — strictly below 1.005 — so
`Decimal(val).quantize(..., ROUND_HALF_UP)` stores 1.00, not 1.01, and adds
1.00 to the balance. -/
theorem C3_round_half_up_defeated_by_float :
    eval_expression_with_percent "1.005" = some (toDouble (201 / 200)) ∧
    toDouble (201 / 200) < 201 / 200 ∧
    record_transaction "A" "1.005" "" "t" ⟨[("A", ⟨0, 2, []⟩)], ⟨[]⟩⟩ =
      (Except.ok 1, ⟨[("A", ⟨1, 2, [⟨"t", 1, "1.005", ""⟩]⟩)], ⟨[]⟩⟩) ∧
    (1 : ℚ) ≠ 101 / 100 := by
  refine ⟨by decide, by decide, by decide, by decide⟩

/-- C4 counterexample: `"100+10%+10%"` is in percent-suffix form (the match
splits it as left `"100+10%"`, op `+`, N = 10), but it does NOT evaluate
successfully: the left part goes through plain `safe_eval`, where the
trailing `%` of `"100+10%"` is a syntax error, so the whole evaluation is
`none` — refuting the claimed recursive evaluation. -/
theorem C4_counterexample :
    suffixFind [] (pyStrip "100+10%+10%".data) = some ("100+10%".data, '+', 10) ∧
    safe_eval "100+10%" = none ∧
    eval_expression_with_percent "100+10%+10%" = none := by
  refine ⟨by decide, by decide, by decide⟩

/-- C4 amended: on a percent-suffix match the left part is evaluated by the
plain `safe_eval`, not recursively by `eval_expression_with_percent`; a left
part that is itself in percent-suffix form therefore fails, and percent
suffixes do not chain. -/
theorem C4_left_via_safe_eval :
    (∀ (e : String) (l : List Char) (op : Char) (n : ℚ),
        suffixFind [] (pyStrip e.data) = some (l, op, n) →
        eval_expression_with_percent e =
          (match safe_eval (String.mk (pyStrip l)) with
           | none => none
           | some v =>
             if op = '+' then some (v + v * (toDouble n / 100))
             else some (v - v * (toDouble n / 100)))) ∧
    eval_expression_with_percent "100+10%+10%" = none := by
  refine ⟨?_, by decide⟩
  intro e l op n h
  simp only [eval_expression_with_percent, h]

/-- C4 witness: the general part applied at `"100+10%+10%"`, whose left part
`"100+10%"` fails under `safe_eval`. -/
theorem C4_witness :
    suffixFind [] (pyStrip "100+10%+10%".data) = some ("100+10%".data, '+', 10) ∧
    eval_expression_with_percent "100+10%+10%" =
      (match safe_eval (String.mk (pyStrip "100+10%".data)) with
       | none => none
       | some v =>
         if ('+' : Char) = '+' then some (v + v * (toDouble 10 / 100))
         else some (v - v * (toDouble 10 / 100))) :=
  ⟨by decide, C4_left_via_safe_eval.1 "100+10%+10%" "100+10%".data '+' 10 (by decide)⟩

/-- C7: on a percent-suffix match `left <+|-> N%` with `safe_eval` yielding
`v` for the left part, the evaluator returns `v ± v * (N / 100)` (with `N`
passed through `float()`); concretely `"100+10%"` evaluates to 110 and
`"200-25%"` to 150. -/
theorem C7_percent_suffix_eval :
    (∀ (e : String) (l : List Char) (op : Char) (n v : ℚ),
        suffixFind [] (pyStrip e.data) = some (l, op, n) →
        safe_eval (String.mk (pyStrip l)) = some v →
        eval_expression_with_percent e =
          (if op = '+' then some (v + v * (toDouble n / 100))
           else some (v - v * (toDouble n / 100)))) ∧
    eval_expression_with_percent "100+10%" = some 110 ∧
    eval_expression_with_percent "200-25%" = some 150 := by
  refine ⟨?_, by decide, by decide⟩
  intro e l op n v h hv
  simp only [eval_expression_with_percent, h, hv]

/-- C7 witness: the general part applied at `"100+10%"` (left value 100,
N = 10). -/
theorem C7_witness :
    suffixFind [] (pyStrip "100+10%".data) = some ("100".data, '+', 10) ∧
    safe_eval (String.mk (pyStrip "100".data)) = some 100 ∧
    eval_expression_with_percent "100+10%" =
      (if ('+' : Char) = '+' then some ((100 : ℚ) + 100 * (toDouble 10 / 100))
       else some ((100 : ℚ) - 100 * (toDouble 10 / 100))) :=
  ⟨by decide, by decide,
    C7_percent_suffix_eval.1 "100+10%" "100".data '+' 10 100 (by decide) (by decide)⟩

/-- C8: an expression not in percent-suffix form has every inline `N%`
rewritten to `(N/100)` and is then evaluated by `safe_eval` with ordinary
precedence; concretely `"2+3*4"` evaluates to 14 and `"50%*2"` to 1. -/
theorem C8_inline_percent_eval :
    (∀ (e : String),
        suffixFind [] (pyStrip e.data) = none →
        eval_expression_with_percent e =
          safe_eval (String.mk (inlineRewrite (pyStrip e.data)))) ∧
    inlineRewrite (pyStrip "50%*2".data) = "(50/100)*2".data ∧
    eval_expression_with_percent "2+3*4" = some 14 ∧
    eval_expression_with_percent "50%*2" = some 1 := by
  refine ⟨?_, by decide, by decide, by decide⟩
  intro e h
  simp only [eval_expression_with_percent, h]

/-- C8 witness: the general part applied at `"2+3*4"`. -/
theorem C8_witness :
    suffixFind [] (pyStrip "2+3*4".data) = none ∧
    eval_expression_with_percent "2+3*4" =
      safe_eval (String.mk (inlineRewrite (pyStrip "2+3*4".data))) :=
  ⟨by decide, C8_inline_percent_eval.1 "2+3*4" (by decide)⟩

/-- C9: `add_account` on an id that (after uppercasing) already exists
fails with the duplicate-account message and leaves the state untouched;
`delete_account` on an absent id fails with the unknown-account message and
leaves the state untouched. -/
theorem C9_duplicate_and_unknown_account :
    (∀ (name : String) (digits : ℕ) (s : BotState) (info : AccountInfo),
        alookup (pyUpper name) s.accounts = some info →
        add_account name digits s = ((false, "Account already exists."), s)) ∧
    (∀ (name : String) (s : BotState),
        alookup (pyUpper name) s.accounts = none →
        delete_account name s = ((false, "Account not found."), s)) := by
  constructor
  · intro name digits s info h
    simp [add_account, h]
  · intro name s h
    simp [delete_account, h]

/-- C9 witness: a duplicate `add` (case-insensitively: `"uah"` against the
stored `"UAH"`) and a `delete` of an absent id, on a concrete ledger. -/
theorem C9_witness :
    add_account "uah" 3 ⟨[("UAH", ⟨5, 2, []⟩)], ⟨[]⟩⟩ =
      ((false, "Account already exists."), ⟨[("UAH", ⟨5, 2, []⟩)], ⟨[]⟩⟩) ∧
    delete_account "xyz" ⟨[("UAH", ⟨5, 2, []⟩)], ⟨[]⟩⟩ =
      ((false, "Account not found."), ⟨[("UAH", ⟨5, 2, []⟩)], ⟨[]⟩⟩) :=
  ⟨C9_duplicate_and_unknown_account.1 "uah" 3 ⟨[("UAH", ⟨5, 2, []⟩)], ⟨[]⟩⟩ ⟨5, 2, []⟩ (by decide),
   C9_duplicate_and_unknown_account.2 "xyz" ⟨[("UAH", ⟨5, 2, []⟩)], ⟨[]⟩⟩ (by decide)⟩

/-- C10: requesting a statement for an id absent from the ledger returns the
not-found message and the state untouched — in particular, no account is
auto-created (unlike `record_transaction`). -/
theorem C10_statement_unknown_account :
    ∀ (account : String) (full : Bool) (s : BotState),
      alookup (pyUpper account) s.accounts = none →
      give_account_statement account full s =
        ("Account " ++ pyUpper account ++ " not found.", s) := by
  intro account full s h
  simp [give_account_statement, h]

/-- C10 witness: a statement request for the absent id `"xyz"`. -/
theorem C10_witness :
    give_account_statement "xyz" false ⟨[("A", ⟨0, 2, []⟩)], ⟨[]⟩⟩ =
      ("Account " ++ pyUpper "xyz" ++ " not found.", ⟨[("A", ⟨0, 2, []⟩)], ⟨[]⟩⟩) :=
  C10_statement_unknown_account "xyz" false ⟨[("A", ⟨0, 2, []⟩)], ⟨[]⟩⟩ (by decide)

/-- C6: one archival run, on any state whose ledger keys are unique (as a
Python dict guarantees): histories are cleared in place with balances and
digits untouched, the archive gains exactly the entries of the previously
non-empty accounts — each holding that account's full prior history and the
run's timestamp, in ledger order — and accounts whose history was already
empty are left exactly as they were. -/
theorem C6_archival_run (now : String) (s : BotState)
    (h : (keysOf s.accounts).Nodup) :
    (archive_history now s).accounts = s.accounts.map clearPair ∧
    (archive_history now s).archive.archived =
      s.archive.archived ++ archEntries now s.accounts ∧
    (∀ p ∈ s.accounts,
      alookup p.1 (archive_history now s).accounts =
        some ⟨p.2.balance, p.2.digits, []⟩) ∧
    (∀ p ∈ s.accounts, p.2.history = [] →
      alookup p.1 (archive_history now s).accounts = some p.2) := by
  have hspec := archive_history_spec now s h
  refine ⟨by rw [hspec], by rw [hspec], ?_, ?_⟩
  · intro p hp
    rw [hspec]
    show alookup p.1 (s.accounts.map clearPair) = _
    rw [alookup_map_clearPair, alookup_of_mem_nodup s.accounts h p hp]
    rfl
  · intro p hp hemp
    rw [hspec]
    show alookup p.1 (s.accounts.map clearPair) = _
    rw [alookup_map_clearPair, alookup_of_mem_nodup s.accounts h p hp]
    have : (⟨p.2.balance, p.2.digits, []⟩ : AccountInfo) = p.2 := by
      obtain ⟨p1, b, d, hist⟩ := p
      simp only at hemp
      rw [hemp]
    simp only [Option.map]
    exact congrArg some this

/-- Concrete two-account state (one non-empty history, one empty) with a
pre-existing archive entry, used to witness C6. -/
def c6state : BotState :=
  ⟨[("A", ⟨5, 2, [⟨"t1", 5, "5", "x"⟩]⟩), ("B", ⟨3, 0, []⟩)],
   ⟨[⟨"OLD", [], "t0"⟩]⟩⟩

/-- C6 witness: the archival-run theorem instantiated on `c6state`. -/
theorem C6_witness :
    (archive_history "t2" c6state).accounts = c6state.accounts.map clearPair ∧
    (archive_history "t2" c6state).archive.archived =
      c6state.archive.archived ++ archEntries "t2" c6state.accounts ∧
    (∀ p ∈ c6state.accounts,
      alookup p.1 (archive_history "t2" c6state).accounts =
        some ⟨p.2.balance, p.2.digits, []⟩) ∧
    (∀ p ∈ c6state.accounts, p.2.history = [] →
      alookup p.1 (archive_history "t2" c6state).accounts = some p.2) :=
  C6_archival_run "t2" c6state (by decide)

/-- True exactly when the command is an explicit deletion of (uppercased)
account id `id`. -/
def deletesId (id : String) : Op → Bool
  | .delAcct n => pyUpper n = id
  | _ => false

/-- The per-account-id invariant carried through every reachable state:
dict keys are unique, a live account's balance equals its live history sum
plus its archived sum, and an absent (never-deleted) id has no archived
amounts. -/
def LedgerInv (id : String) (s : BotState) : Prop :=
  (keysOf s.accounts).Nodup ∧
  (∀ info, alookup id s.accounts = some info →
      info.balance = histSum info.history + archSum s id) ∧
  (alookup id s.accounts = none → archSum s id = 0)

theorem archEntries_cons_empty (now n : String) (i : AccountInfo)
    (t : List (String × AccountInfo)) (hnil : i.history = []) :
    archEntries now ((n, i) :: t) = archEntries now t := by
  simp [archEntries, List.filterMap_cons, hnil]

theorem archEntries_cons_nonempty (now n : String) (i : AccountInfo)
    (t : List (String × AccountInfo)) (hnil : ¬ (i.history = [])) :
    archEntries now ((n, i) :: t) =
      ⟨n, i.history, now⟩ :: archEntries now t := by
  simp only [archEntries, List.filterMap_cons]
  rw [if_neg (by simpa [List.isEmpty_iff] using hnil)]

theorem archSumL_cons_eq (e : ArchiveEntry) (es : List ArchiveEntry)
    (id : String) (h : e.account = id) :
    archSumL (e :: es) id = histSum e.history + archSumL es id := by
  simp [archSumL, List.filter_cons, h]

theorem archSumL_cons_ne (e : ArchiveEntry) (es : List ArchiveEntry)
    (id : String) (h : ¬ (e.account = id)) :
    archSumL (e :: es) id = archSumL es id := by
  simp [archSumL, List.filter_cons, h]

theorem archSumL_archEntries_not_mem (now id : String)
    (l : List (String × AccountInfo)) (h : id ∉ keysOf l) :
    archSumL (archEntries now l) id = 0 := by
  induction l with
  | nil => rfl
  | cons p t ih =>
    obtain ⟨n, i⟩ := p
    have hni : ¬ (n = id) := fun hc => h (hc ▸ List.mem_cons_self _ _)
    have ht : id ∉ keysOf t := fun hc => h (List.mem_cons_of_mem _ hc)
    by_cases hnil : i.history = []
    · rw [archEntries_cons_empty now n i t hnil]
      exact ih ht
    · rw [archEntries_cons_nonempty now n i t hnil,
        archSumL_cons_ne _ _ _ hni]
      exact ih ht

theorem archSumL_archEntries_lookup (now id : String)
    (l : List (String × AccountInfo)) (h : (keysOf l).Nodup)
    (info : AccountInfo) (hlk : alookup id l = some info) :
    archSumL (archEntries now l) id = histSum info.history := by
  induction l with
  | nil => cases hlk
  | cons p t ih =>
    obtain ⟨n, i⟩ := p
    have hns : n ∉ keysOf t ∧ (keysOf t).Nodup := by simpa [keysOf] using h
    by_cases hn : n = id
    · have hinfo : i = info := by simpa [alookup, hn] using hlk
      subst hinfo
      have hrest : archSumL (archEntries now t) id = 0 :=
        archSumL_archEntries_not_mem now id t (hn ▸ hns.1)
      by_cases hnil : i.history = []
      · rw [archEntries_cons_empty now n i t hnil, hrest, hnil]
        rfl
      · rw [archEntries_cons_nonempty now n i t hnil,
          archSumL_cons_eq _ _ _ hn, hrest]
        ring
    · have hlk2 : alookup id t = some info := by simpa [alookup, hn] using hlk
      by_cases hnil : i.history = []
      · rw [archEntries_cons_empty now n i t hnil]
        exact ih hns.2 hlk2
      · rw [archEntries_cons_nonempty now n i t hnil,
          archSumL_cons_ne _ _ _ hn]
        exact ih hns.2 hlk2

theorem inv_init (id : String) : LedgerInv id initState := by
  refine ⟨List.nodup_nil, ?_, ?_⟩
  · intro info h
    cases h
  · intro _
    rfl

theorem inv_add (id nm : String) (d : ℕ) (s : BotState) (h : LedgerInv id s) :
    LedgerInv id (add_account nm d s).2 := by
  cases hl : alookup (pyUpper nm) s.accounts with
  | some info => simpa [add_account, hl] using h
  | none =>
    simp only [add_account, hl]
    have hmem : pyUpper nm ∉ keysOf s.accounts := (alookup_eq_none_iff _ _).mp hl
    refine ⟨?_, ?_, ?_⟩
    · show (keysOf (s.accounts ++ [(pyUpper nm, ⟨0, d, []⟩)])).Nodup
      have : keysOf (s.accounts ++ [(pyUpper nm, ⟨0, d, []⟩)]) =
          keysOf s.accounts ++ [pyUpper nm] := by
        simp [keysOf]
      rw [this, List.nodup_append]
      exact ⟨h.1, List.nodup_singleton _, by simpa using hmem⟩
    · intro info hlk
      by_cases hid : pyUpper nm = id
      · rw [alookup_append_none id s.accounts _ (hid ▸ hl)] at hlk
        have hinfo : info = ⟨0, d, []⟩ := by
          simp [alookup, hid] at hlk
          exact hlk.symm
        subst hinfo
        show (0 : ℚ) = histSum [] + archSum s id
        rw [h.2.2 (hid ▸ hl)]
        rfl
      · show info.balance = histSum info.history +
          archSum { s with accounts := s.accounts ++ [(pyUpper nm, ⟨0, d, []⟩)] } id
        cases hl2 : alookup id s.accounts with
        | some j =>
          rw [alookup_append_some id s.accounts _ j hl2] at hlk
          cases hlk
          exact h.2.1 info hl2
        | none =>
          rw [alookup_append_none id s.accounts _ hl2] at hlk
          simp [alookup, hid] at hlk
    · intro hnone
      show archSum s id = 0
      cases hl2 : alookup id s.accounts with
      | some j =>
        rw [alookup_append_some id s.accounts _ j hl2] at hnone
        cases hnone
      | none => exact h.2.2 hl2

theorem inv_aupdate_record (id acc : String) (q : ℚ) (ts ex cm : String)
    (s1 : BotState) (h1 : LedgerInv id s1) :
    LedgerInv id
      { s1 with
        accounts := aupdate acc
          (fun i => { i with
            balance := i.balance + q,
            history := i.history ++ [⟨ts, q, ex, cm⟩] }) s1.accounts } := by
  refine ⟨?_, ?_, ?_⟩
  · show (keysOf (aupdate acc _ s1.accounts)).Nodup
    rw [keysOf_aupdate]
    exact h1.1
  · intro info hlk
    show info.balance = histSum info.history + archSum s1 id
    by_cases hid : acc = id
    · subst hid
      rw [alookup_aupdate_self] at hlk
      cases hl2 : alookup acc s1.accounts with
      | none =>
        rw [hl2] at hlk
        cases hlk
      | some j =>
        rw [hl2] at hlk
        have hinfo : info = { j with
            balance := j.balance + q,
            history := j.history ++ [⟨ts, q, ex, cm⟩] } := by
          cases hlk
          rfl
        subst hinfo
        have hbal := h1.2.1 j hl2
        show j.balance + q = histSum (j.history ++ [⟨ts, q, ex, cm⟩]) + archSum s1 acc
        rw [histSum_append]
        have hone : histSum [⟨ts, q, ex, cm⟩] = q := by simp [histSum]
        rw [hone, hbal]
        ring
    · rw [alookup_aupdate_ne _ _ _ _ hid] at hlk
      exact h1.2.1 info hlk
  · intro hnone
    show archSum s1 id = 0
    by_cases hid : acc = id
    · subst hid
      rw [alookup_aupdate_self] at hnone
      cases hl2 : alookup acc s1.accounts with
      | none => exact h1.2.2 hl2
      | some j =>
        rw [hl2] at hnone
        cases hnone
    · rw [alookup_aupdate_ne _ _ _ _ hid] at hnone
      exact h1.2.2 hnone

theorem inv_record (id nm ex cm ts : String) (s : BotState) (h : LedgerInv id s) :
    LedgerInv id (record_transaction nm ex cm ts s).2 := by
  have h1 : LedgerInv id
      (if (alookup (pyUpper nm) s.accounts).isNone
       then (add_account (pyUpper nm) 2 s).2 else s) := by
    by_cases hc : (alookup (pyUpper nm) s.accounts).isNone
    · simpa [hc] using inv_add id (pyUpper nm) 2 s h
    · simpa [hc] using h
  simp only [record_transaction]
  cases he : eval_expression_with_percent ex with
  | none => simpa [he] using h1
  | some v =>
    simp only [he]
    cases hlk : alookup (pyUpper nm)
        (if (alookup (pyUpper nm) s.accounts).isNone
         then (add_account (pyUpper nm) 2 s).2 else s).accounts with
    | none => simpa [hlk] using h1
    | some info =>
      simp only [hlk]
      exact inv_aupdate_record id (pyUpper nm) (quantize v info.digits) ts ex cm _ h1

theorem inv_delete (id nm : String) (s : BotState) (h : LedgerInv id s)
    (hd : ¬ (pyUpper nm = id)) :
    LedgerInv id (delete_account nm s).2 := by
  cases hl : alookup (pyUpper nm) s.accounts with
  | none => simpa [delete_account, hl] using h
  | some j =>
    simp only [delete_account, hl]
    refine ⟨?_, ?_, ?_⟩
    · show (keysOf (aremove (pyUpper nm) s.accounts)).Nodup
      exact (keysOf_aremove_sublist _ _).nodup h.1
    · intro info hlk
      rw [alookup_aremove_ne _ _ _ hd] at hlk
      exact h.2.1 info hlk
    · intro hnone
      rw [alookup_aremove_ne _ _ _ hd] at hnone
      exact h.2.2 hnone

theorem inv_archive (id now : String) (s : BotState) (h : LedgerInv id s) :
    LedgerInv id (archive_history now s) := by
  rw [archive_history_spec now s h.1]
  have hkeys : keysOf (s.accounts.map clearPair) = keysOf s.accounts := by
    simp only [keysOf, List.map_map]
    exact List.map_congr_left fun p _ => rfl
  refine ⟨?_, ?_, ?_⟩
  · show (keysOf (s.accounts.map clearPair)).Nodup
    rw [hkeys]
    exact h.1
  · intro info hlk
    rw [show alookup id (⟨s.accounts.map clearPair,
        ⟨s.archive.archived ++ archEntries now s.accounts⟩⟩ : BotState).accounts =
        alookup id (s.accounts.map clearPair) from rfl,
      alookup_map_clearPair] at hlk
    cases hl2 : alookup id s.accounts with
    | none =>
      rw [hl2] at hlk
      cases hlk
    | some j =>
      rw [hl2] at hlk
      have hinfo : info = ⟨j.balance, j.digits, []⟩ := by
        cases hlk
        rfl
      subst hinfo
      show j.balance = histSum [] +
        archSumL (s.archive.archived ++ archEntries now s.accounts) id
      rw [archSumL_append,
        archSumL_archEntries_lookup now id s.accounts h.1 j hl2,
        h.2.1 j hl2]
      show histSum j.history + archSum s id = 0 + (archSumL s.archive.archived id + histSum j.history)
      rw [archSum_eq_archSumL]
      ring
  · intro hnone
    rw [show alookup id (⟨s.accounts.map clearPair,
        ⟨s.archive.archived ++ archEntries now s.accounts⟩⟩ : BotState).accounts =
        alookup id (s.accounts.map clearPair) from rfl,
      alookup_map_clearPair] at hnone
    cases hl2 : alookup id s.accounts with
    | some j =>
      rw [hl2] at hnone
      cases hnone
    | none =>
      show archSumL (s.archive.archived ++ archEntries now s.accounts) id = 0
      rw [archSumL_append,
        archSumL_archEntries_not_mem now id s.accounts
          ((alookup_eq_none_iff id s.accounts).mp hl2)]
      have h0 := h.2.2 hl2
      rw [archSum_eq_archSumL] at h0
      rw [h0]
      ring

theorem inv_applyOp (id : String) (s : BotState) (op : Op) (h : LedgerInv id s)
    (hd : deletesId id op = false) : LedgerInv id (applyOp s op) := by
  cases op with
  | addAcct n d => exact inv_add id n d s h
  | delAcct n =>
    have hne : ¬ (pyUpper n = id) := by simpa [deletesId] using hd
    exact inv_delete id n s h hne
  | record n e c t => exact inv_record id n e c t s h
  | archive t => exact inv_archive id t s h

theorem inv_run (id : String) : ∀ (ops : List Op) (s : BotState),
    LedgerInv id s → (∀ op ∈ ops, deletesId id op = false) →
    LedgerInv id (ops.foldl applyOp s) := by
  intro ops
  induction ops with
  | nil => intro s h _; exact h
  | cons op rest ih =>
    intro s h hall
    rw [List.foldl_cons]
    exact ih _ (inv_applyOp id s op h (hall op (List.mem_cons_self _ _)))
      (fun o ho => hall o (List.mem_cons_of_mem _ ho))

theorem alookup_balance_aupdate_clear (k id : String)
    (l : List (String × AccountInfo)) :
    Option.map AccountInfo.balance
        (alookup id (aupdate k (fun i => { i with history := [] }) l)) =
      Option.map AccountInfo.balance (alookup id l) := by
  by_cases h : k = id
  · subst h
    rw [alookup_aupdate_self]
    cases alookup k l <;> rfl
  · rw [alookup_aupdate_ne _ _ _ _ h]

theorem archiveLoop_balance (now id : String) :
    ∀ (L : List (String × AccountInfo)) (s : BotState),
      Option.map AccountInfo.balance
          (alookup id (archiveLoop now L s).accounts) =
        Option.map AccountInfo.balance (alookup id s.accounts) := by
  intro L
  induction L with
  | nil => intro s; rfl
  | cons p t ih =>
    intro s
    obtain ⟨acc, info⟩ := p
    by_cases hh : info.history.isEmpty
    · simp only [archiveLoop, if_pos hh]
      exact ih s
    · simp only [archiveLoop, if_neg hh]
      rw [ih]
      exact alookup_balance_aupdate_clear acc id s.accounts

/-- Command sequence that refutes C5 as stated: record 10 on UAH, archive
it, delete the account, recreate it.  The recreated account has balance 0
while 10 was "ever recorded" for UAH (and sits in the archive). -/
def c5opsDelete : List Op :=
  [.addAcct "UAH" 2, .record "UAH" "10" "" "t1", .archive "t2",
   .delAcct "UAH", .addAcct "UAH" 2]

/-- C5 counterexample: after delete-and-recreate, the live account `"UAH"`
has balance 0, yet the sum of all amounts ever recorded for `"UAH"` is 10 —
which is also its live-history sum plus its archived sum — so the claimed
equality fails on this reachable ledger-plus-archive state. -/
theorem C5_counterexample :
    alookup "UAH" (runOps c5opsDelete).accounts = some ⟨0, 2, []⟩ ∧
    recordedSum c5opsDelete "UAH" = 10 ∧
    histSum [] + archSum (runOps c5opsDelete) "UAH" = 10 ∧
    ¬ ((0 : ℚ) = 10) := by
  refine ⟨by decide, by decide, by decide, by decide⟩

/-- C5 amended: as long as an account id is never deleted, every reachable
state satisfies the claimed accounting identity — the account's balance
equals its live history sum plus the sum of all its archived amounts (which
together are exactly the amounts ever recorded for it) — and, separately and
unconditionally, one archival run changes no account's balance. -/
theorem C5_balance_invariant :
    (∀ (ops : List Op) (id : String),
        (∀ op ∈ ops, deletesId id op = false) →
        ∀ info, alookup id (runOps ops).accounts = some info →
          info.balance = histSum info.history + archSum (runOps ops) id) ∧
    (∀ (now : String) (s : BotState) (id : String),
        Option.map AccountInfo.balance
            (alookup id (archive_history now s).accounts) =
          Option.map AccountInfo.balance (alookup id s.accounts)) := by
  constructor
  · intro ops id hops info hlk
    exact (inv_run id ops initState (inv_init id) hops).2.1 info hlk
  · intro now s id
    exact archiveLoop_balance now id s.accounts s

/-- Delete-free command sequence used to witness C5. -/
def c5opsKeep : List Op :=
  [.addAcct "UAH" 2, .record "UAH" "10" "" "t1", .archive "t2"]

/-- C5 witness: on the delete-free trace the invariant is discharged at the
concrete account `"UAH"` (balance 10 = cleared history 0 + archived 10). -/
theorem C5_witness :
    (∀ op ∈ c5opsKeep, deletesId "UAH" op = false) ∧
    alookup "UAH" (runOps c5opsKeep).accounts = some ⟨10, 2, []⟩ ∧
    (⟨10, 2, []⟩ : AccountInfo).balance =
      histSum (⟨10, 2, []⟩ : AccountInfo).history +
        archSum (runOps c5opsKeep) "UAH" :=
  ⟨by decide, by decide,
    C5_balance_invariant.1 c5opsKeep "UAH" (by decide) ⟨10, 2, []⟩ (by decide)⟩

end Yasha
